import Mathlib

/-!
Verification of the streak-detection core of ASTRiDE (`astride/detect.py`).

The development shallowly embeds the `Streak` class's methods:

* `findBox` models the recursive method `Streak.__find_box(n, edges, xs, ys)`;
  Python's unbounded recursion is modelled with an explicit fuel parameter
  (`Res.out` = fuel exhausted, i.e. the recursion did not finish within the
  given depth), a missing-index lookup error (`IndexError` from
  `[edge for edge in edges if edge['index'] == n][0]`) is `Res.err`, and a
  normal return is `Res.ok`.  List mutation (`xs.append`, the
  `current_edge['box_plotted'] = True` dict update) is made explicit by
  returning the updated lists.
* `plotBoxes` models the box-drawing loop of `Streak.plot_figures`
  (lines 151-168): it walks the edge list in order, skips edges already
  marked `box_plotted`, calls `findBox` on the others and records the
  coordinates passed to `pl.fill`.
* `detect` models `Streak.detect` / `Streak.__detect_streaks`; the
  `EDGE` helper class lives in `astride/utils/edge.py` (outside the
  embedded source), so its operations are abstract function parameters.
* `write_outputs` models `Streak.write_outputs` at the level of emitted
  lines.
* `set_output_path` models the `output_path` normalisation in
  `Streak.__init__`, with Python strings as `List Char`.

Numeric edge fields are modelled over `Int`: every operation the claims
concern (list appending, `min`/`max`, comparisons, string formatting order)
is exact and representation-independent.
-/

namespace Astride

/-- One entry of the `edges` list: the dictionary produced by
`EDGE.quantify`, restricted to the keys read by `detect.py`. -/
structure Edge where
  index : Int
  x_center : Int
  y_center : Int
  area : Int
  perimeter : Int
  shape_factor : Int
  radius_deviation : Int
  slope_angle : Int
  intercept : Int
  x_min : Int
  x_max : Int
  y_min : Int
  y_max : Int
  connectivity : Int
  box_plotted : Bool
  deriving Repr, DecidableEq

/-- Forget the transient `box_plotted` flag (the only field
`__find_box` writes). -/
def unmark (e : Edge) : Edge := { e with box_plotted := false }

/-- `[edge for edge in edges if edge['index'] == n][0]`: the first edge
whose `index` equals `n`, `none` when Python would raise `IndexError`. -/
def findEdge : List Edge → Int → Option Edge
  | [], _ => none
  | e :: es, n => if e.index = n then some e else findEdge es n

/-- `current_edge['box_plotted'] = True`: mark the first edge whose
`index` equals `n` (the object `findEdge` returns). -/
def setPlotted : List Edge → Int → List Edge
  | [], _ => []
  | e :: es, n =>
      if e.index = n then { e with box_plotted := true } :: es
      else e :: setPlotted es n

/-- Outcome of a fuel-bounded run of a Python call: `out` = the recursion
did not finish within the fuel bound, `err` = an exception escaped,
`ok` = normal return. -/
inductive Res (α : Type) where
  | out : Res α
  | err : Res α
  | ok : α → Res α
  deriving Repr, DecidableEq

/-- State after a successful `__find_box` call: the (possibly marked)
edge list, the final contents of the caller's `xs` and `ys` lists, and
the Python return value (`some (xs, ys)` from the explicit `return`,
`none` when the function falls off the end). -/
structure BoxOut where
  edges : List Edge
  xs : List (Int × Int)
  ys : List (Int × Int)
  ret : Option (List (Int × Int) × List (Int × Int))
  deriving Repr, DecidableEq

/-- `Streak.__find_box(n, edges, xs, ys)` (detect.py lines 103-124):
look up the edge with index `n` (IndexError when absent), set its
`box_plotted` flag, append its `[x_min, x_max]` / `[y_min, y_max]` to
`xs` / `ys`, then recurse on `connectivity` when it is not `-1`
(discarding the inner return value) and otherwise return `(xs, ys)`. -/
def findBox : Nat → List Edge → Int → List (Int × Int) → List (Int × Int) →
    Res BoxOut
  | 0, _, _, _, _ => Res.out
  | fuel + 1, edges, n, xs, ys =>
      match findEdge edges n with
      | none => Res.err
      | some e =>
          let edges1 := setPlotted edges n
          let xs1 := xs ++ [(e.x_min, e.x_max)]
          let ys1 := ys ++ [(e.y_min, e.y_max)]
          if e.connectivity = -1 then
            Res.ok ⟨edges1, xs1, ys1, some (xs1, ys1)⟩
          else
            match findBox fuel edges1 e.connectivity xs1 ys1 with
            | Res.ok r => Res.ok ⟨r.edges, r.xs, r.ys, none⟩
            | Res.out => Res.out
            | Res.err => Res.err

/-- The list of edge indices visited when following `connectivity` from
`n` until the sentinel `-1`, provided every lookup succeeds and the
sentinel is reached within the step bound; `none` otherwise. -/
def chainIdx : Nat → List Edge → Int → Option (List Int)
  | 0, _, _ => none
  | k + 1, edges, n =>
      match findEdge edges n with
      | none => none
      | some e =>
          if e.connectivity = -1 then some [n]
          else (chainIdx k edges e.connectivity).map (fun l => n :: l)

/-- Following `connectivity` from `n` hits a missing index (a dangling
link) within the step bound, before reaching the sentinel `-1`. -/
def hitsDangling : Nat → List Edge → Int → Bool
  | 0, _, _ => false
  | k + 1, edges, n =>
      match findEdge edges n with
      | none => true
      | some e =>
          if e.connectivity = -1 then false
          else hitsDangling k edges e.connectivity

/-- The `[x_min, x_max]` pairs of the edges named by `l`. -/
def boxXs (edges : List Edge) (l : List Int) : List (Int × Int) :=
  l.filterMap (fun i => (findEdge edges i).map (fun e => (e.x_min, e.x_max)))

/-- The `[y_min, y_max]` pairs of the edges named by `l`. -/
def boxYs (edges : List Edge) (l : List Int) : List (Int × Int) :=
  l.filterMap (fun i => (findEdge edges i).map (fun e => (e.y_min, e.y_max)))

/-- Minimum of a list of integers (`np.min`; the default for `[]` is
irrelevant: every use is on a non-empty list). -/
def minList : List Int → Int
  | [] => 0
  | [a] => a
  | a :: b :: rest => min a (minList (b :: rest))

/-- Maximum of a list of integers (`np.max`). -/
def maxList : List Int → Int
  | [] => 0
  | [a] => a
  | a :: b :: rest => max a (maxList (b :: rest))

/-- Row-major flattening of a list of pairs: `np.min`/`np.max` of a list
of 2-element lists range over exactly these entries. -/
def flatPairs : List (Int × Int) → List Int
  | [] => []
  | (a, b) :: ps => a :: b :: flatPairs ps

/-! ### The box-drawing loop of `plot_figures` (detect.py lines 151-168) -/

/-- `edge['box_plotted'] = True` on the loop variable of
`for n, edge in enumerate(edges)`: mark the edge at position `i`. -/
def markPos (edges : List Edge) (i : Nat) : List Edge :=
  match edges.get? i with
  | none => edges
  | some e => edges.set i { e with box_plotted := true }

/-- One drawn box: the `(x_min, x_max, y_min, y_max)` handed to
`pl.fill` after applying `box_margin = 10` and clamping to the image
shape. -/
def PlotBox : Type := Int × Int × Int × Int

/-- The body of the box loop, iterating positions `i, i+1, ...` for
`remaining` more steps (`remaining` starts at the list length, which no
iteration changes): skip edges already marked `box_plotted`, otherwise
run `__find_box`, draw one box from `np.min`/`np.max` of the collected
rows, and mark the loop edge.  A raised exception or non-terminating
recursion inside `__find_box` aborts the whole loop (`none`). -/
def plotBoxLoop (shapeX shapeY : Int) (fuel : Nat) :
    List Edge → Nat → Nat → List (Int × Int × Int × Int) →
    Option (List Edge × List (Int × Int × Int × Int))
  | edges, _, 0, boxes => some (edges, boxes)
  | edges, i, r + 1, boxes =>
      match edges.get? i with
      | none => some (edges, boxes)
      | some e =>
          if e.box_plotted then plotBoxLoop shapeX shapeY fuel edges (i + 1) r boxes
          else
            match findBox fuel edges e.index [] [] with
            | Res.ok res =>
                let bx := (max (minList (flatPairs res.xs) - 10) 0,
                           min (maxList (flatPairs res.xs) + 10) shapeX,
                           max (minList (flatPairs res.ys) - 10) 0,
                           min (maxList (flatPairs res.ys) + 10) shapeY)
                plotBoxLoop shapeX shapeY fuel (markPos res.edges i) (i + 1) r
                  (boxes ++ [bx])
            | Res.out => none
            | Res.err => none

/-- The `# Plot boxes.` loop of `plot_figures`: one pass over the whole
edge list, returning the final edge list and the boxes drawn. -/
def plotBoxes (shapeX shapeY : Int) (fuel : Nat) (edges : List Edge) :
    Option (List Edge × List (Int × Int × Int × Int)) :=
  plotBoxLoop shapeX shapeY fuel edges 0 edges.length []

/-- Number of chain roots: edges that are not the `connectivity` target
of any edge in the collection. -/
def rootCount (edges : List Edge) : Nat :=
  (edges.filter (fun e => edges.all (fun e2 => !(e2.connectivity == e.index)))).length

/-! ### The detection pipeline `detect` / `__detect_streaks`

The `EDGE` class (`astride/utils/edge.py`) and the numeric collaborators
(`photutils.Background`, `skimage.measure.find_contours`, numpy
subtraction) are outside the embedded source file, so they are abstract
parameters; `detect.py` only sequences them. -/

/-- The operations `detect.py` invokes on an `EDGE` object, abstract. -/
structure EdgeOps (C E : Type) where
  init : C → E
  quantify : E → E
  filter_edges : E → E
  connect_edges : E → E
  get_edges : E → List Edge

/-- The image-level collaborators `detect.py` invokes, abstract:
`Background(raw, (box, box))`, `.background`, array subtraction,
`.background_rms_median`, and `measure.find_contours(image, threshold)`. -/
structure ImageOps (Img Bkg C : Type) where
  background : Img → Int → Bkg
  background_map : Bkg → Img
  subtract : Img → Img → Img
  background_rms_median : Bkg → Int
  find_contours : Img → Int → C

/-- The fields of a `Streak` object that `detect` reads or writes. -/
structure StreakState (Img Bkg : Type) where
  raw_image : Img
  bkg : Option Bkg
  background_map : Option Img
  image : Option Img
  raw_edges : Option (List Edge)
  streaks : Option (List Edge)
  bkg_box_size : Int
  contour_threshold : Int

/-- `Streak.__remove_background` (detect.py lines 65-71). -/
def remove_background {Img Bkg C : Type} (iops : ImageOps Img Bkg C)
    (s : StreakState Img Bkg) : StreakState Img Bkg :=
  let b := iops.background s.raw_image s.bkg_box_size
  let m := iops.background_map b
  { s with bkg := some b, background_map := some m,
           image := some (iops.subtract s.raw_image m) }

/-- `Streak.__detect_streaks` (detect.py lines 73-89): find contours on
the background-subtracted image, quantify them, store `raw_edges`, then
filter, then link, then store `streaks`.  `none` when `image`/`bkg`
were never set (Python would raise on `None`). -/
def detect_streaks {Img Bkg C E : Type} (iops : ImageOps Img Bkg C)
    (eops : EdgeOps C E) (s : StreakState Img Bkg) :
    Option (StreakState Img Bkg) :=
  match s.image, s.bkg with
  | some img, some b =>
      let contours := iops.find_contours img
        (iops.background_rms_median b * s.contour_threshold)
      let edge := eops.quantify (eops.init contours)
      let raw := eops.get_edges edge
      let linked := eops.connect_edges (eops.filter_edges edge)
      some { s with raw_edges := some raw,
                    streaks := some (eops.get_edges linked) }
  | _, _ => none

/-- `Streak.detect` (detect.py lines 57-63): remove the background,
then detect streaks. -/
def detect {Img Bkg C E : Type} (iops : ImageOps Img Bkg C)
    (eops : EdgeOps C E) (s : StreakState Img Bkg) :
    Option (StreakState Img Bkg) :=
  detect_streaks iops eops (remove_background iops s)

/-! ### `write_outputs` (detect.py lines 197-218), at line granularity -/

/-- One line written to `streaks.txt`. -/
inductive OutLine where
  | header : OutLine
  | record : List Int → OutLine
  deriving Repr, DecidableEq

/-- The tuple interpolated into the per-edge format string, in source
order. -/
def output_fields (e : Edge) : List Int :=
  [e.index, e.x_center, e.y_center, e.area, e.perimeter, e.shape_factor,
   e.radius_deviation, e.slope_angle, e.intercept, e.connectivity]

/-- `Streak.write_outputs`: one header line, then the loop
`for n, edge in enumerate(self.streaks)` appending one record line per
edge. -/
def write_outputs (streaks : List Edge) : List OutLine :=
  streaks.foldl (fun acc e => acc ++ [OutLine.record (output_fields e)])
    [OutLine.header]

/-! ### The `output_path` normalisation of `Streak.__init__`
(detect.py lines 47-52), with Python strings as `List Char` -/

/-- `s.split('.')[0]`: the characters before the first dot. -/
def beforeFirstDot : List Char → List Char
  | [] => []
  | c :: cs => if c = '.' then [] else c :: beforeFirstDot cs

/-- `os.path.basename(s)`: the characters after the last slash. -/
def pyBasename (l : List Char) : List Char :=
  l.foldl (fun acc c => if c = '/' then [] else acc ++ [c]) []

/-- Lines 47-52 of `__init__`: default the path to
`'./%s/' % basename(filename).split('.')[0]` when `None`, then append a
`'/'` unless the path already ends with one; `none` models the
`IndexError` Python raises on `output_path[-1]` for an empty string. -/
def set_output_path (filename : List Char) (output_path : Option (List Char)) :
    Option (List Char) :=
  let op := match output_path with
    | none => ('.' :: '/' :: beforeFirstDot (pyBasename filename)) ++ ['/']
    | some p => p
  match op.getLast? with
  | none => none
  | some c => if c = '/' then some op else some (op ++ ['/'])

/-! ### Concrete inputs used by witnesses and counterexamples -/

/-- An edge with the given index, connectivity and bounding box; the
descriptor fields are irrelevant to traversal and set to zero. -/
def mkEdge (idx conn xmin xmax ymin ymax : Int) : Edge :=
  { index := idx, x_center := 0, y_center := 0, area := 0, perimeter := 0,
    shape_factor := 0, radius_deviation := 0, slope_angle := 0, intercept := 0,
    x_min := xmin, x_max := xmax, y_min := ymin, y_max := ymax,
    connectivity := conn, box_plotted := false }

/-- The spec's 2-edge chain: bounding boxes `[0,20]×[0,43]` and
`[25,45]×[53,93]`, the higher-index edge linked to the lower. -/
def specChain : List Edge :=
  [mkEdge 0 (-1) 0 20 0 43, mkEdge 1 0 25 45 53 93]

/-- Two edges whose `connectivity` fields point at each other. -/
def cyc2 : List Edge := [mkEdge 0 1 0 1 0 1, mkEdge 1 0 2 3 2 3]

/-- A single edge whose `connectivity` names a missing index. -/
def dangle : List Edge := [mkEdge 0 7 0 1 0 1]

/-- A 1-element chain. -/
def single : Edge := mkEdge 0 (-1) 0 20 0 43

/-- The state `__find_box` returns on `specChain` from start index 1. -/
def specRun : BoxOut :=
  ⟨[{ mkEdge 0 (-1) 0 20 0 43 with box_plotted := true },
    { mkEdge 1 0 25 45 53 93 with box_plotted := true }],
   [(25, 45), (0, 20)], [(53, 93), (0, 43)], none⟩

end Astride

namespace Astride

/-! ### Basic lemmas about lookup, marking and `unmark` -/

theorem unmark_box_plotted (e : Edge) : (unmark e).box_plotted = false := rfl

theorem unmark_index (e : Edge) : (unmark e).index = e.index := rfl

theorem unmark_connectivity (e : Edge) : (unmark e).connectivity = e.connectivity := rfl

theorem unmark_x_min (e : Edge) : (unmark e).x_min = e.x_min := rfl

theorem unmark_x_max (e : Edge) : (unmark e).x_max = e.x_max := rfl

theorem unmark_y_min (e : Edge) : (unmark e).y_min = e.y_min := rfl

theorem unmark_y_max (e : Edge) : (unmark e).y_max = e.y_max := rfl

theorem unmark_unmark (e : Edge) : unmark (unmark e) = unmark e := rfl

theorem findEdge_index {edges : List Edge} {n : Int} {e : Edge}
    (h : findEdge edges n = some e) : e.index = n := by
  induction edges with
  | nil => simp [findEdge] at h
  | cons a es ih =>
      by_cases ha : a.index = n
      · simp [findEdge, ha] at h
        simpa [← h] using ha
      · simp [findEdge, ha] at h
        exact ih h

theorem findEdge_mem {edges : List Edge} {n : Int} {e : Edge}
    (h : findEdge edges n = some e) : e ∈ edges := by
  induction edges with
  | nil => simp [findEdge] at h
  | cons a es ih =>
      by_cases ha : a.index = n
      · simp [findEdge, ha] at h
        simp [h]
      · simp [findEdge, ha] at h
        exact List.mem_cons_of_mem _ (ih h)

theorem unmark_setPlotted (edges : List Edge) (n : Int) :
    (setPlotted edges n).map unmark = edges.map unmark := by
  induction edges with
  | nil => rfl
  | cons a es ih =>
      by_cases ha : a.index = n
      · simp [setPlotted, ha, unmark]
      · simp [setPlotted, ha, ih]

/-- Lookup is determined by the `unmark`-image of the list, up to the
`box_plotted` flag of the found edge. -/
theorem findEdge_congr {l1 l2 : List Edge} (h : l1.map unmark = l2.map unmark)
    (n : Int) :
    Option.map unmark (findEdge l1 n) = Option.map unmark (findEdge l2 n) := by
  induction l1 generalizing l2 with
  | nil =>
      cases l2 with
      | nil => rfl
      | cons b bs => simp at h
  | cons a as ih =>
      cases l2 with
      | nil => simp at h
      | cons b bs =>
          simp only [List.map_cons, List.cons.injEq] at h
          obtain ⟨hab, hrest⟩ := h
          have hidx : a.index = b.index := by
            have := congrArg Edge.index hab
            simpa [unmark] using this
          by_cases ha : a.index = n
          · simp [findEdge, ha, hidx ▸ ha, ← hidx, hab]
          · have hb : ¬ b.index = n := by rw [← hidx]; exact ha
            simp [findEdge, ha, hb]
            exact ih hrest

theorem chainIdx_congr {l1 l2 : List Edge} (h : l1.map unmark = l2.map unmark) :
    ∀ (k : Nat) (n : Int), chainIdx k l1 n = chainIdx k l2 n := by
  intro k
  induction k with
  | zero => intro n; rfl
  | succ k ih =>
      intro n
      have hfe := findEdge_congr h n
      cases h1 : findEdge l1 n with
      | none =>
          cases h2 : findEdge l2 n with
          | none => simp [chainIdx, h1, h2]
          | some e2 => rw [h1, h2] at hfe; simp at hfe
      | some e1 =>
          cases h2 : findEdge l2 n with
          | none => rw [h1, h2] at hfe; simp at hfe
          | some e2 =>
              rw [h1, h2] at hfe
              have hum : unmark e1 = unmark e2 := by simpa using hfe
              have hconn : e1.connectivity = e2.connectivity := by
                simpa [unmark] using congrArg Edge.connectivity hum
              simp [chainIdx, h1, h2, hconn, ih]

theorem hitsDangling_congr {l1 l2 : List Edge} (h : l1.map unmark = l2.map unmark) :
    ∀ (k : Nat) (n : Int), hitsDangling k l1 n = hitsDangling k l2 n := by
  intro k
  induction k with
  | zero => intro n; rfl
  | succ k ih =>
      intro n
      have hfe := findEdge_congr h n
      cases h1 : findEdge l1 n with
      | none =>
          cases h2 : findEdge l2 n with
          | none => simp [hitsDangling, h1, h2]
          | some e2 => rw [h1, h2] at hfe; simp at hfe
      | some e1 =>
          cases h2 : findEdge l2 n with
          | none => rw [h1, h2] at hfe; simp at hfe
          | some e2 =>
              rw [h1, h2] at hfe
              have hum : unmark e1 = unmark e2 := by simpa using hfe
              have hconn : e1.connectivity = e2.connectivity := by
                simpa [unmark] using congrArg Edge.connectivity hum
              simp [hitsDangling, h1, h2, hconn, ih]

theorem boxXs_congr {l1 l2 : List Edge} (h : l1.map unmark = l2.map unmark)
    (l : List Int) : boxXs l1 l = boxXs l2 l := by
  induction l with
  | nil => rfl
  | cons i is ih =>
      have hfe := findEdge_congr h i
      cases h1 : findEdge l1 i with
      | none =>
          cases h2 : findEdge l2 i with
          | none =>
              simp [boxXs, List.filterMap_cons, h1, h2, boxXs.eq_def]
              exact ih
          | some e2 => rw [h1, h2] at hfe; simp at hfe
      | some e1 =>
          cases h2 : findEdge l2 i with
          | none => rw [h1, h2] at hfe; simp at hfe
          | some e2 =>
              rw [h1, h2] at hfe
              have hum : unmark e1 = unmark e2 := by simpa using hfe
              have hx1 : e1.x_min = e2.x_min := by
                simpa [unmark] using congrArg Edge.x_min hum
              have hx2 : e1.x_max = e2.x_max := by
                simpa [unmark] using congrArg Edge.x_max hum
              simp only [boxXs, List.filterMap_cons, h1, h2, Option.map_some'] at ih ⊢
              rw [hx1, hx2, ih]

theorem boxYs_congr {l1 l2 : List Edge} (h : l1.map unmark = l2.map unmark)
    (l : List Int) : boxYs l1 l = boxYs l2 l := by
  induction l with
  | nil => rfl
  | cons i is ih =>
      have hfe := findEdge_congr h i
      cases h1 : findEdge l1 i with
      | none =>
          cases h2 : findEdge l2 i with
          | none =>
              simp [boxYs, List.filterMap_cons, h1, h2, boxYs.eq_def]
              exact ih
          | some e2 => rw [h1, h2] at hfe; simp at hfe
      | some e1 =>
          cases h2 : findEdge l2 i with
          | none => rw [h1, h2] at hfe; simp at hfe
          | some e2 =>
              rw [h1, h2] at hfe
              have hum : unmark e1 = unmark e2 := by simpa using hfe
              have hy1 : e1.y_min = e2.y_min := by
                simpa [unmark] using congrArg Edge.y_min hum
              have hy2 : e1.y_max = e2.y_max := by
                simpa [unmark] using congrArg Edge.y_max hum
              simp only [boxYs, List.filterMap_cons, h1, h2, Option.map_some'] at ih ⊢
              rw [hy1, hy2, ih]

end Astride

namespace Astride

/-! ### The frame of `__find_box`: only `box_plotted` is written -/

theorem findBox_frame (fuel : Nat) :
    ∀ (edges : List Edge) (n : Int) (xs ys : List (Int × Int)) (r : BoxOut),
      findBox fuel edges n xs ys = Res.ok r →
      r.edges.map unmark = edges.map unmark := by
  induction fuel with
  | zero => intro edges n xs ys r h; simp [findBox] at h
  | succ fuel ih =>
      intro edges n xs ys r h
      cases hfe : findEdge edges n with
      | none => simp [findBox, hfe] at h
      | some e =>
          by_cases hc : e.connectivity = -1
          · simp only [findBox, hfe, hc, if_true] at h
            injection h with h
            rw [← h]
            exact unmark_setPlotted edges n
          · simp only [findBox, hfe, hc, if_false, if_neg hc] at h
            cases hin : findBox fuel (setPlotted edges n) e.connectivity
                (xs ++ [(e.x_min, e.x_max)]) (ys ++ [(e.y_min, e.y_max)]) with
            | out => rw [hin] at h; simp at h
            | err => rw [hin] at h; simp at h
            | ok r' =>
                rw [hin] at h
                injection h with h
                rw [← h]
                have h1 := ih _ _ _ _ _ hin
                rw [h1, unmark_setPlotted]

/-! ### Successful traversal along a well-formed chain -/

theorem boxXs_cons {edges : List Edge} {n : Int} {e : Edge}
    (h : findEdge edges n = some e) (l : List Int) :
    boxXs edges (n :: l) = (e.x_min, e.x_max) :: boxXs edges l := by
  simp [boxXs, List.filterMap_cons, h]

theorem boxYs_cons {edges : List Edge} {n : Int} {e : Edge}
    (h : findEdge edges n = some e) (l : List Int) :
    boxYs edges (n :: l) = (e.y_min, e.y_max) :: boxYs edges l := by
  simp [boxYs, List.filterMap_cons, h]

/-- If `chainIdx` certifies that the chain starting at `n` reaches the
sentinel within `k` lookups, then `__find_box` with fuel `k` returns
normally, having appended exactly the chain's boxes to `xs` and `ys`
and changed nothing but `box_plotted` flags. -/
theorem findBox_chain_spec :
    ∀ (k : Nat) (edges : List Edge) (n : Int) (l : List Int),
      chainIdx k edges n = some l →
      ∀ xs ys, ∃ r : BoxOut,
        findBox k edges n xs ys = Res.ok r ∧
        r.xs = xs ++ boxXs edges l ∧
        r.ys = ys ++ boxYs edges l := by
  intro k
  induction k with
  | zero => intro edges n l h; simp [chainIdx] at h
  | succ k ih =>
      intro edges n l h xs ys
      cases hfe : findEdge edges n with
      | none => simp [chainIdx, hfe] at h
      | some e =>
          by_cases hc : e.connectivity = -1
          · simp only [chainIdx, hfe, hc, if_true] at h
            injection h with h
            refine ⟨⟨setPlotted edges n, xs ++ [(e.x_min, e.x_max)],
                     ys ++ [(e.y_min, e.y_max)],
                     some (xs ++ [(e.x_min, e.x_max)], ys ++ [(e.y_min, e.y_max)])⟩,
                    ?_, ?_, ?_⟩
            · simp [findBox, hfe, hc]
            · rw [← h, boxXs_cons hfe]
              simp [boxXs]
            · rw [← h, boxYs_cons hfe]
              simp [boxYs]
          · simp only [chainIdx, hfe, hc, if_false, if_neg hc] at h
            cases hch : chainIdx k edges e.connectivity with
            | none => rw [hch] at h; simp at h
            | some l' =>
                rw [hch] at h
                simp only [Option.map_some'] at h
                injection h with h
                have hch2 : chainIdx k (setPlotted edges n) e.connectivity = some l' := by
                  rw [chainIdx_congr (unmark_setPlotted edges n) k e.connectivity, hch]
                obtain ⟨r', hr', hrx, hry⟩ :=
                  ih (setPlotted edges n) e.connectivity l' hch2
                    (xs ++ [(e.x_min, e.x_max)]) (ys ++ [(e.y_min, e.y_max)])
                refine ⟨⟨r'.edges, r'.xs, r'.ys, none⟩, ?_, ?_, ?_⟩
                · simp only [findBox, hfe, if_neg hc, hr']
                · rw [← h, boxXs_cons hfe]
                  simp only [hrx, boxXs_congr (unmark_setPlotted edges n) l']
                  simp
                · rw [← h, boxYs_cons hfe]
                  simp only [hry, boxYs_congr (unmark_setPlotted edges n) l']
                  simp

/-! ### `np.min`/`np.max` over the collected 2-element rows -/

theorem minList_cons_of_ne (a : Int) {l : List Int} (h : l ≠ []) :
    minList (a :: l) = min a (minList l) := by
  cases l with
  | nil => exact absurd rfl h
  | cons b rest => rfl

theorem maxList_cons_of_ne (a : Int) {l : List Int} (h : l ≠ []) :
    maxList (a :: l) = max a (maxList l) := by
  cases l with
  | nil => exact absurd rfl h
  | cons b rest => rfl

theorem flatPairs_ne_nil {p : Int × Int} {ps : List (Int × Int)} :
    flatPairs (p :: ps) ≠ [] := by
  obtain ⟨a, b⟩ := p
  simp [flatPairs]

/-- Row-major minimum of `[x_min, x_max]` rows is the minimum of the
`x_min` column, provided each row is ordered. -/
theorem minList_flatPairs (ps : List (Int × Int)) (h : ∀ p ∈ ps, p.1 ≤ p.2) :
    minList (flatPairs ps) = minList (ps.map Prod.fst) := by
  induction ps with
  | nil => rfl
  | cons p ps ih =>
      obtain ⟨a, b⟩ := p
      have hab : a ≤ b := h (a, b) (by simp)
      cases ps with
      | nil => simp [flatPairs, minList, min_eq_left hab]
      | cons q qs =>
          have hr : ∀ p ∈ q :: qs, p.1 ≤ p.2 := by
            intro p hp; exact h p (List.mem_cons_of_mem _ hp)
          have ihr := ih hr
          have h1 : flatPairs ((a, b) :: q :: qs) = a :: b :: flatPairs (q :: qs) := rfl
          rw [h1, minList_cons_of_ne a (by simp [flatPairs_ne_nil]),
              minList_cons_of_ne b flatPairs_ne_nil, ihr,
              ← min_assoc, min_eq_left hab]
          have h2 : ((a, b) :: q :: qs).map Prod.fst = a :: (q :: qs).map Prod.fst := rfl
          rw [h2, minList_cons_of_ne a (by simp)]

/-- Row-major maximum of `[x_min, x_max]` rows is the maximum of the
`x_max` column, provided each row is ordered. -/
theorem maxList_flatPairs (ps : List (Int × Int)) (h : ∀ p ∈ ps, p.1 ≤ p.2) :
    maxList (flatPairs ps) = maxList (ps.map Prod.snd) := by
  induction ps with
  | nil => rfl
  | cons p ps ih =>
      obtain ⟨a, b⟩ := p
      have hab : a ≤ b := h (a, b) (by simp)
      cases ps with
      | nil => simp [flatPairs, maxList, max_eq_right hab]
      | cons q qs =>
          have hr : ∀ p ∈ q :: qs, p.1 ≤ p.2 := by
            intro p hp; exact h p (List.mem_cons_of_mem _ hp)
          have ihr := ih hr
          have h1 : flatPairs ((a, b) :: q :: qs) = a :: b :: flatPairs (q :: qs) := rfl
          rw [h1, maxList_cons_of_ne a (by simp [flatPairs_ne_nil]),
              maxList_cons_of_ne b flatPairs_ne_nil, ihr,
              ← max_assoc, max_eq_right hab]
          have h2 : ((a, b) :: q :: qs).map Prod.snd = b :: (q :: qs).map Prod.snd := rfl
          rw [h2, maxList_cons_of_ne b (by simp)]

theorem mem_boxXs {edges : List Edge} {l : List Int} {p : Int × Int}
    (h : p ∈ boxXs edges l) : ∃ e, e ∈ edges ∧ p = (e.x_min, e.x_max) := by
  simp only [boxXs, List.mem_filterMap, Option.map_eq_some'] at h
  obtain ⟨i, _, e, hfe, hp⟩ := h
  exact ⟨e, findEdge_mem hfe, hp.symm⟩

theorem mem_boxYs {edges : List Edge} {l : List Int} {p : Int × Int}
    (h : p ∈ boxYs edges l) : ∃ e, e ∈ edges ∧ p = (e.y_min, e.y_max) := by
  simp only [boxYs, List.mem_filterMap, Option.map_eq_some'] at h
  obtain ⟨i, _, e, hfe, hp⟩ := h
  exact ⟨e, findEdge_mem hfe, hp.symm⟩

end Astride

namespace Astride

/-! ### Divergence of `__find_box` when the chain never resolves -/

/-- If following `connectivity` from `n` never reaches the sentinel and
never hits a missing index — as inside a cycle — then `__find_box`
exhausts every fuel bound: the recursion never returns and never
raises, for any recursion depth. -/
theorem findBox_stuck_out :
    ∀ (fuel : Nat) (edges : List Edge) (n : Int),
      (∀ k, hitsDangling k edges n = false ∧ chainIdx k edges n = none) →
      ∀ (xs ys : List (Int × Int)), findBox fuel edges n xs ys = Res.out := by
  intro fuel
  induction fuel with
  | zero => intro edges n _ xs ys; rfl
  | succ fuel ih =>
      intro edges n h xs ys
      obtain ⟨hd1, hc1⟩ := h 1
      cases hfe : findEdge edges n with
      | none => simp [hitsDangling, hfe] at hd1
      | some e =>
          by_cases hcn : e.connectivity = -1
          · simp [chainIdx, hfe, hcn] at hc1
          · have hnext : ∀ k, hitsDangling k edges e.connectivity = false ∧
                chainIdx k edges e.connectivity = none := by
              intro k
              obtain ⟨hdk, hck⟩ := h (k + 1)
              constructor
              · simpa [hitsDangling, hfe, hcn] using hdk
              · have hmap : (chainIdx k edges e.connectivity).map
                    (fun l => n :: l) = none := by
                  simpa [chainIdx, hfe, hcn] using hck
                exact Option.map_eq_none'.mp hmap
            have hnext2 : ∀ k,
                hitsDangling k (setPlotted edges n) e.connectivity = false ∧
                chainIdx k (setPlotted edges n) e.connectivity = none := by
              intro k
              rw [hitsDangling_congr (unmark_setPlotted edges n),
                  chainIdx_congr (unmark_setPlotted edges n)]
              exact hnext k
            have hin := ih (setPlotted edges n) e.connectivity hnext2
              (xs ++ [(e.x_min, e.x_max)]) (ys ++ [(e.y_min, e.y_max)])
            simp only [findBox, hfe, if_neg hcn, hin]

/-- Neither lookup from index 0 nor from index 1 of the 2-cycle ever
resolves: every chain prefix stays inside `{0, 1}`. -/
theorem cyc2_stuck : ∀ (k : Nat) (n : Int), n = 0 ∨ n = 1 →
    hitsDangling k cyc2 n = false ∧ chainIdx k cyc2 n = none := by
  intro k
  induction k with
  | zero => intro n _; exact ⟨rfl, rfl⟩
  | succ k ih =>
      intro n hn
      rcases hn with h0 | h1
      · subst h0
        have he : findEdge cyc2 0 = some (mkEdge 0 1 0 1 0 1) := by decide
        constructor
        · simp only [hitsDangling, he]
          rw [if_neg (by decide)]
          exact (ih 1 (Or.inr rfl)).1
        · simp only [chainIdx, he]
          rw [if_neg (by decide)]
          have hcc : (mkEdge 0 1 0 1 0 1).connectivity = 1 := rfl
          rw [hcc, (ih 1 (Or.inr rfl)).2]
          rfl
      · subst h1
        have he : findEdge cyc2 1 = some (mkEdge 1 0 2 3 2 3) := by decide
        constructor
        · simp only [hitsDangling, he]
          rw [if_neg (by decide)]
          exact (ih 0 (Or.inl rfl)).1
        · simp only [chainIdx, he]
          rw [if_neg (by decide)]
          have hcc : (mkEdge 1 0 2 3 2 3).connectivity = 0 := rfl
          rw [hcc, (ih 0 (Or.inl rfl)).2]
          rfl

/-! ### Claim theorems -/

/-- C1: if following `connectivity` from start index `n` reaches the
sentinel `-1` (certificate `chainIdx … = some l`, which also forces
every traversed link to name an existing edge), then `__find_box`
returns normally, appending to `xs` the `[x_min, x_max]` pair and to
`ys` the `[y_min, y_max]` pair of every edge reachable from `n`, and
`np.min`/`np.max` over the collected rows equal the union bounding box
of the chain (the min of the member `x_min`s, max of the member
`x_max`s, and likewise for y). -/
theorem find_box_union_box (k : Nat) (edges : List Edge) (n : Int)
    (l : List Int) (xs ys : List (Int × Int))
    (hchain : chainIdx k edges n = some l)
    (hmono : ∀ e ∈ edges, e.x_min ≤ e.x_max ∧ e.y_min ≤ e.y_max) :
    (∃ r : BoxOut, findBox k edges n xs ys = Res.ok r ∧
        r.xs = xs ++ boxXs edges l ∧ r.ys = ys ++ boxYs edges l) ∧
    minList (flatPairs (boxXs edges l)) = minList ((boxXs edges l).map Prod.fst) ∧
    maxList (flatPairs (boxXs edges l)) = maxList ((boxXs edges l).map Prod.snd) ∧
    minList (flatPairs (boxYs edges l)) = minList ((boxYs edges l).map Prod.fst) ∧
    maxList (flatPairs (boxYs edges l)) = maxList ((boxYs edges l).map Prod.snd) := by
  refine ⟨findBox_chain_spec k edges n l hchain xs ys, ?_, ?_, ?_, ?_⟩
  · refine minList_flatPairs _ (fun p hp => ?_)
    obtain ⟨e, he, hpe⟩ := mem_boxXs hp
    rw [hpe]
    exact (hmono e he).1
  · refine maxList_flatPairs _ (fun p hp => ?_)
    obtain ⟨e, he, hpe⟩ := mem_boxXs hp
    rw [hpe]
    exact (hmono e he).1
  · refine minList_flatPairs _ (fun p hp => ?_)
    obtain ⟨e, he, hpe⟩ := mem_boxYs hp
    rw [hpe]
    exact (hmono e he).2
  · refine maxList_flatPairs _ (fun p hp => ?_)
    obtain ⟨e, he, hpe⟩ := mem_boxYs hp
    rw [hpe]
    exact (hmono e he).2

/-- Witness for C1 at the spec's own 2-edge chain (boxes
`[0,20]×[0,43]` and `[25,45]×[53,93]`): the traversal succeeds and the
aggregated union box is `[0,45]×[0,93]`. -/
theorem find_box_union_box_witness :
    chainIdx 2 specChain 1 = some [1, 0] ∧
    (∀ e ∈ specChain, e.x_min ≤ e.x_max ∧ e.y_min ≤ e.y_max) ∧
    ((∃ r : BoxOut, findBox 2 specChain 1 [] [] = Res.ok r ∧
        r.xs = [] ++ boxXs specChain [1, 0] ∧
        r.ys = [] ++ boxYs specChain [1, 0]) ∧
      minList (flatPairs (boxXs specChain [1, 0])) =
        minList ((boxXs specChain [1, 0]).map Prod.fst) ∧
      maxList (flatPairs (boxXs specChain [1, 0])) =
        maxList ((boxXs specChain [1, 0]).map Prod.snd) ∧
      minList (flatPairs (boxYs specChain [1, 0])) =
        minList ((boxYs specChain [1, 0]).map Prod.fst) ∧
      maxList (flatPairs (boxYs specChain [1, 0])) =
        maxList ((boxYs specChain [1, 0]).map Prod.snd)) ∧
    minList (flatPairs (boxXs specChain [1, 0])) = 0 ∧
    maxList (flatPairs (boxXs specChain [1, 0])) = 45 ∧
    minList (flatPairs (boxYs specChain [1, 0])) = 0 ∧
    maxList (flatPairs (boxYs specChain [1, 0])) = 93 :=
  ⟨by decide, by decide,
   find_box_union_box 2 specChain 1 [1, 0] [] [] (by decide) (by decide),
   by decide, by decide, by decide, by decide⟩

/-- C2: under the structural invariant that following `connectivity`
from any edge of the collection reaches the sentinel within `N` steps
(`N` = collection size, so no cycle and no dangling link on any chain),
`__find_box` terminates normally from every start index in the
collection: recursion depth `N` always suffices. -/
theorem find_box_terminating (edges : List Edge) (xs ys : List (Int × Int))
    (hinv : ∀ e ∈ edges, (chainIdx edges.length edges e.index).isSome = true) :
    ∀ e ∈ edges, ∃ r : BoxOut,
      findBox edges.length edges e.index xs ys = Res.ok r := by
  intro e he
  obtain ⟨l, hl⟩ := Option.isSome_iff_exists.mp (hinv e he)
  obtain ⟨r, hr, _, _⟩ := findBox_chain_spec _ edges e.index l hl xs ys
  exact ⟨r, hr⟩

/-- Witness for C2 on the valid 2-edge chain. -/
theorem find_box_terminating_witness :
    (∀ e ∈ specChain, (chainIdx specChain.length specChain e.index).isSome = true) ∧
    (mkEdge 1 0 25 45 53 93) ∈ specChain ∧
    (∃ r : BoxOut,
      findBox specChain.length specChain (mkEdge 1 0 25 45 53 93).index [] [] =
        Res.ok r) :=
  ⟨by decide, by decide,
   find_box_terminating specChain [] [] (by decide)
     (mkEdge 1 0 25 45 53 93) (by decide)⟩

/-- C3: the claim — and spec §4.5/§7, whose "must fail loudly as an
internal-consistency error" it restates — is the clear intent, and the
code falls short of it: `__find_box` keeps no visited bookkeeping and
performs no cycle check, so started inside the 2-cycle (from either
start index, with any accumulator lists) it recurses forever,
exhausting every recursion budget without ever returning and without
ever raising a lookup error.  Nothing in lines 103-124 produces the
mandated internal-consistency failure; any termination a real run sees
comes from the interpreter's generic recursion limit, not from a check
in this code. -/
theorem find_box_cycle_runs_forever (fuel : Nat) (xs ys : List (Int × Int)) :
    findBox fuel cyc2 0 xs ys = Res.out ∧ findBox fuel cyc2 1 xs ys = Res.out :=
  ⟨findBox_stuck_out fuel cyc2 0 (fun k => cyc2_stuck k 0 (Or.inl rfl)) xs ys,
   findBox_stuck_out fuel cyc2 1 (fun k => cyc2_stuck k 1 (Or.inr rfl)) xs ys⟩

/-- C4 counterexample: `__find_box` does mutate the Edge records: on a
1-element chain it flips the visited edge's `box_plotted` field, so
"every field of every Edge record is unchanged" is false. -/
theorem find_box_mutates_cex :
    findBox 1 [single] 0 [] [] =
      Res.ok ⟨[{ single with box_plotted := true }], [(0, 20)], [(0, 43)],
              some ([(0, 20)], [(0, 43)])⟩ ∧
    { single with box_plotted := true } ≠ single :=
  ⟨by decide, by decide⟩

/-- C4 (amended): the visited bookkeeping is stored on the Edge records
themselves — `__find_box` sets `box_plotted = True` on edges it visits —
but that flag is the only field it writes: modulo `box_plotted`, the
edge list is unchanged whenever the call returns. -/
theorem find_box_frame_claim (fuel : Nat) (edges : List Edge) (n : Int)
    (xs ys : List (Int × Int)) (r : BoxOut)
    (hok : findBox fuel edges n xs ys = Res.ok r) :
    r.edges.map unmark = edges.map unmark :=
  findBox_frame fuel edges n xs ys r hok

/-- Witness for the amended C4 on the 1-element chain. -/
theorem find_box_frame_claim_witness :
    findBox 1 [single] 0 [] [] =
      Res.ok ⟨[{ single with box_plotted := true }], [(0, 20)], [(0, 43)],
              some ([(0, 20)], [(0, 43)])⟩ ∧
    ([{ single with box_plotted := true }] : List Edge).map unmark =
      [single].map unmark :=
  ⟨by decide,
   find_box_frame_claim 1 [single] 0 [] []
     ⟨[{ single with box_plotted := true }], [(0, 20)], [(0, 43)],
      some ([(0, 20)], [(0, 43)])⟩ (by decide)⟩

/-- C6: if following `connectivity` from `n` reaches a link that names
no existing edge (within `k` lookups), `__find_box` with that recursion
budget raises — the `[...][0]` lookup of the missing index fails — and
never silently skips the dangling link. -/
theorem find_box_dangling_err (k : Nat) :
    ∀ (edges : List Edge) (n : Int) (xs ys : List (Int × Int)),
      hitsDangling k edges n = true →
      findBox k edges n xs ys = Res.err := by
  induction k with
  | zero => intro edges n xs ys h; simp [hitsDangling] at h
  | succ k ih =>
      intro edges n xs ys h
      cases hfe : findEdge edges n with
      | none => simp [findBox, hfe]
      | some e =>
          by_cases hc : e.connectivity = -1
          · simp [hitsDangling, hfe, hc] at h
          · simp only [hitsDangling, hfe, if_neg hc] at h
            have h2 : hitsDangling k (setPlotted edges n) e.connectivity = true := by
              rw [hitsDangling_congr (unmark_setPlotted edges n)]
              exact h
            have hin := ih (setPlotted edges n) e.connectivity
              (xs ++ [(e.x_min, e.x_max)]) (ys ++ [(e.y_min, e.y_max)]) h2
            simp only [findBox, hfe, if_neg hc, hin]

/-- Witness for C6: one edge whose `connectivity` is 7, an index that
exists nowhere. -/
theorem find_box_dangling_err_witness :
    hitsDangling 2 dangle 0 = true ∧ findBox 2 dangle 0 [] [] = Res.err :=
  ⟨by decide, find_box_dangling_err 2 dangle 0 [] [] (by decide)⟩

/-- C9: whenever `__find_box` returns, it returns the pair `(xs, ys)`
exactly when the start edge's `connectivity` is the sentinel `-1`
(having appended just that edge's box); when the start edge is linked,
the recursive branch falls off the end of the function and returns
`None`, the appended boxes being visible only through the mutated
`xs`/`ys` lists. -/
theorem find_box_return_shape (fuel : Nat) (edges : List Edge) (n : Int)
    (xs ys : List (Int × Int)) (r : BoxOut)
    (hok : findBox fuel edges n xs ys = Res.ok r) :
    ∃ e, findEdge edges n = some e ∧
      (e.connectivity = -1 →
        r.ret = some (r.xs, r.ys) ∧
        r.xs = xs ++ [(e.x_min, e.x_max)] ∧
        r.ys = ys ++ [(e.y_min, e.y_max)]) ∧
      (e.connectivity ≠ -1 → r.ret = none) := by
  cases fuel with
  | zero => simp [findBox] at hok
  | succ fuel =>
      cases hfe : findEdge edges n with
      | none => simp [findBox, hfe] at hok
      | some e =>
          refine ⟨e, rfl, ?_, ?_⟩
          · intro hc
            simp only [findBox, hfe, hc, if_true] at hok
            injection hok with hok
            rw [← hok]
            exact ⟨rfl, rfl, rfl⟩
          · intro hc
            simp only [findBox, hfe, if_neg hc] at hok
            cases hin : findBox fuel (setPlotted edges n) e.connectivity
                (xs ++ [(e.x_min, e.x_max)]) (ys ++ [(e.y_min, e.y_max)]) with
            | out => rw [hin] at hok; simp at hok
            | err => rw [hin] at hok; simp at hok
            | ok r' =>
                rw [hin] at hok
                injection hok with hok
                rw [← hok]

/-- Witness for C9 on the 2-edge chain: the start edge is linked
(`connectivity = 0`), and the returned value is `None` while the
appended boxes sit in the output lists. -/
theorem find_box_return_shape_witness :
    findBox 2 specChain 1 [] [] = Res.ok specRun ∧
    (∃ e, findEdge specChain 1 = some e ∧
      (e.connectivity = -1 →
        specRun.ret = some (specRun.xs, specRun.ys) ∧
        specRun.xs = [] ++ [(e.x_min, e.x_max)] ∧
        specRun.ys = [] ++ [(e.y_min, e.y_max)]) ∧
      (e.connectivity ≠ -1 → specRun.ret = none)) :=
  ⟨by decide, find_box_return_shape 2 specChain 1 [] [] specRun (by decide)⟩

end Astride

namespace Astride

/-- C7: `detect` removes the background first and then runs the stages
strictly in the order Quantify → Filter → Link, each stage consuming the
complete output of the previous one: the contour set is computed on the
background-subtracted image, `raw_edges` is the quantifier's full
output, and `streaks` is `get_edges(connect_edges(filter_edges(quantify(
init(contours)))))` — the post-filter, post-link edge list. -/
theorem detect_stage_order {Img Bkg C E : Type} (iops : ImageOps Img Bkg C)
    (eops : EdgeOps C E) (s : StreakState Img Bkg) :
    ∃ s', detect iops eops s = some s' ∧
      s'.image = some (iops.subtract s.raw_image
        (iops.background_map (iops.background s.raw_image s.bkg_box_size))) ∧
      s'.raw_edges = some (eops.get_edges (eops.quantify (eops.init
        (iops.find_contours
          (iops.subtract s.raw_image
            (iops.background_map (iops.background s.raw_image s.bkg_box_size)))
          (iops.background_rms_median (iops.background s.raw_image s.bkg_box_size) *
            s.contour_threshold))))) ∧
      s'.streaks = some (eops.get_edges (eops.connect_edges (eops.filter_edges
        (eops.quantify (eops.init
          (iops.find_contours
            (iops.subtract s.raw_image
              (iops.background_map (iops.background s.raw_image s.bkg_box_size)))
            (iops.background_rms_median (iops.background s.raw_image s.bkg_box_size) *
              s.contour_threshold))))))) := by
  exact ⟨_, rfl, rfl, rfl, rfl⟩

/-- `writelines` in a loop only ever appends. -/
theorem foldl_record_append (l : List Edge) :
    ∀ acc : List OutLine,
      l.foldl (fun a e => a ++ [OutLine.record (output_fields e)]) acc =
      acc ++ l.map (fun e => OutLine.record (output_fields e)) := by
  induction l with
  | nil => intro acc; simp
  | cons e es ih =>
      intro acc
      simp only [List.foldl_cons, List.map_cons, ih, List.append_assoc,
        List.singleton_append]

/-- C8: `write_outputs` emits a single header line followed by exactly
one record line per edge, each record carrying the fields `index,
x_center, y_center, area, perimeter, shape_factor, radius_deviation,
slope_angle, intercept, connectivity` in that order. -/
theorem write_outputs_shape (streaks : List Edge) :
    write_outputs streaks =
      OutLine.header ::
        streaks.map (fun e => OutLine.record
          [e.index, e.x_center, e.y_center, e.area, e.perimeter,
           e.shape_factor, e.radius_deviation, e.slope_angle, e.intercept,
           e.connectivity]) ∧
    (write_outputs streaks).length = streaks.length + 1 := by
  constructor
  · rw [write_outputs, foldl_record_append]
    rfl
  · rw [write_outputs, foldl_record_append]
    simp [Nat.add_comm]

/-- Appending a slash makes the last character a slash. -/
theorem getLast_append_slash (l : List Char) :
    (l ++ ['/']).getLast? = some '/' :=
  List.getLast?_concat l

/-- Variant with an exposed head, the shape `simp` leaves behind. -/
theorem getLast_cons_append_slash (a : Char) (l : List Char) :
    (a :: (l ++ ['/'])).getLast? = some '/' := by
  have h : a :: (l ++ ['/']) = (a :: l) ++ ['/'] := rfl
  rw [h]
  exact getLast_append_slash (a :: l)

/-- C10: whenever `__init__` returns (the `output_path[-1]` indexing did
not raise, which only an empty supplied path triggers), the stored
`output_path` ends with `'/'`; and a `None` path defaults to
`'./<basename of filename before its first dot>/'`. -/
theorem set_output_path_claim (filename : List Char)
    (op : Option (List Char)) :
    (∀ r, set_output_path filename op = some r → r.getLast? = some '/') ∧
    set_output_path filename none =
      some (('.' :: '/' :: beforeFirstDot (pyBasename filename)) ++ ['/']) := by
  constructor
  · intro r hr
    cases op with
    | none =>
        simp [set_output_path, getLast_append_slash,
          getLast_cons_append_slash] at hr
        rw [← hr]
        simp [getLast_cons_append_slash]
    | some p =>
        cases hlast : p.getLast? with
        | none => simp [set_output_path, hlast] at hr
        | some c =>
            by_cases hc : c = '/'
            · simp [set_output_path, hlast, hc] at hr
              rw [← hr, hlast, hc]
            · simp [set_output_path, hlast, hc] at hr
              rw [← hr]
              exact getLast_append_slash p
  · simp [set_output_path, getLast_append_slash, getLast_cons_append_slash]

/-- Witness for C10: a supplied path lacking the trailing slash gets
one appended; the default path for `img.fits` is `./img/`. -/
theorem set_output_path_claim_witness :
    set_output_path ("img.fits".toList) (some ("out".toList)) =
      some ("out/".toList) ∧
    ("out/".toList).getLast? = some '/' ∧
    set_output_path ("img.fits".toList) none =
      some (('.' :: '/' :: beforeFirstDot (pyBasename ("img.fits".toList))) ++ ['/']) :=
  ⟨by decide,
   (set_output_path_claim ("img.fits".toList) (some ("out".toList))).1
     ("out/".toList) (by decide),
   (set_output_path_claim ("img.fits".toList) none).2⟩

end Astride

namespace Astride

/-! ### Positional lemmas for the box loop of `plot_figures` -/

theorem unmark_markPos : ∀ (edges : List Edge) (i : Nat),
    (markPos edges i).map unmark = edges.map unmark := by
  intro edges
  induction edges with
  | nil => intro i; rfl
  | cons a as ih =>
      intro i
      cases i with
      | zero => simp [markPos, unmark]
      | succ i =>
          have hg : (a :: as).get? (i + 1) = as.get? i := rfl
          unfold markPos
          rw [hg]
          cases h : as.get? i with
          | none => rfl
          | some e =>
              show List.map unmark
                  ((a :: as).set (i + 1) { e with box_plotted := true }) =
                List.map unmark (a :: as)
              have hset : (a :: as).set (i + 1) { e with box_plotted := true } =
                  a :: as.set i { e with box_plotted := true } := rfl
              rw [hset, List.map_cons, List.map_cons]
              have hm2 : markPos as i = as.set i { e with box_plotted := true } := by
                unfold markPos
                rw [h]
              rw [← hm2, ih i]

theorem markPos_get?_ne (edges : List Edge) (i p : Nat) (h : p ≠ i) :
    (markPos edges i).get? p = edges.get? p := by
  unfold markPos
  cases hg : edges.get? i with
  | none => rfl
  | some e =>
      simp only
      exact List.get?_set_ne _ _ (fun hip => h hip.symm)

theorem map_unmark_get? {l1 l2 : List Edge} (h : l1.map unmark = l2.map unmark)
    (p : Nat) : (l1.get? p).map unmark = (l2.get? p).map unmark := by
  have h1 := congrArg (fun l => l.get? p) h
  simpa [List.get?_map] using h1

theorem mem_transfer {l1 l2 : List Edge} (h : l1.map unmark = l2.map unmark)
    {e : Edge} (he : e ∈ l1) : ∃ e2, e2 ∈ l2 ∧ unmark e2 = unmark e := by
  have hm : unmark e ∈ l2.map unmark := by
    rw [← h]
    exact List.mem_map_of_mem unmark he
  rcases List.mem_map.mp hm with ⟨e2, he2, heq⟩
  exact ⟨e2, he2, heq⟩

/-- With indices laid out as `0..N-1` in list order, the edge at
position `p` has index `p`. -/
theorem index_of_get? {edges : List Edge}
    (hidx : edges.map (fun e => e.index) =
      (List.range edges.length).map Int.ofNat)
    {p : Nat} {e : Edge} (hp : edges.get? p = some e) : e.index = (p : Int) := by
  have hlt : p < edges.length := by
    rcases List.get?_eq_some.mp hp with ⟨h, _⟩
    exact h
  have h1 := congrArg (fun l => l.get? p) hidx
  simp only [List.get?_map] at h1
  rw [hp, List.get?_range hlt] at h1
  simpa using h1

/-- `setPlotted` at a position either leaves the entry alone or marks
an entry whose index is the searched one. -/
theorem setPlotted_get?_cases : ∀ (edges : List Edge) (n : Int) (p : Nat),
    (setPlotted edges n).get? p = edges.get? p ∨
    (∃ e, edges.get? p = some e ∧ e.index = n ∧
      (setPlotted edges n).get? p = some { e with box_plotted := true }) := by
  intro edges
  induction edges with
  | nil => intro n p; left; rfl
  | cons a as ih =>
      intro n p
      by_cases ha : a.index = n
      · cases p with
        | zero =>
            right
            exact ⟨a, rfl, ha, by simp [setPlotted, ha]⟩
        | succ p =>
            left
            simp [setPlotted, ha, List.get?_cons_succ]
      · cases p with
        | zero =>
            left
            simp [setPlotted, ha]
        | succ p =>
            have hs : setPlotted (a :: as) n = a :: setPlotted as n := by
              simp [setPlotted, ha]
            rw [hs]
            simpa [List.get?_cons_succ] using ih n p

/-- When every link points from a higher index to a strictly lower one,
`__find_box` started at `n` marks only edges whose index is at most
`n`: a newly set `box_plotted` at some position implies that position's
edge has index `≤ n`. -/
theorem findBox_marks_le :
    ∀ (fuel : Nat) (edges : List Edge) (n : Int) (xs ys : List (Int × Int))
      (r : BoxOut),
      (∀ e ∈ edges, e.connectivity = -1 ∨ e.connectivity < e.index) →
      findBox fuel edges n xs ys = Res.ok r →
      ∀ (p : Nat) (e e' : Edge), edges.get? p = some e →
        r.edges.get? p = some e' → e'.box_plotted = true →
        e.box_plotted = true ∨ e.index ≤ n := by
  intro fuel
  induction fuel with
  | zero => intro edges n xs ys r _ hok; simp [findBox] at hok
  | succ fuel ih =>
      intro edges n xs ys r hdec hok p e e' hpe hpe' hbp
      cases hfe : findEdge edges n with
      | none => simp [findBox, hfe] at hok
      | some e0 =>
          have hidx0 : e0.index = n := findEdge_index hfe
          by_cases hc : e0.connectivity = -1
          · simp only [findBox, hfe, hc, if_true] at hok
            injection hok with hok
            rw [← hok] at hpe'
            rcases setPlotted_get?_cases edges n p with hcase | ⟨em, hem, hemidx, hems⟩
            · rw [hcase, hpe] at hpe'
              injection hpe' with hpe'
              left
              rw [hpe']
              exact hbp
            · rw [hem] at hpe
              injection hpe with hpe
              right
              rw [hpe] at hemidx
              exact le_of_eq hemidx
          · simp only [findBox, hfe, if_neg hc] at hok
            cases hin : findBox fuel (setPlotted edges n) e0.connectivity
                (xs ++ [(e0.x_min, e0.x_max)]) (ys ++ [(e0.y_min, e0.y_max)]) with
            | out => rw [hin] at hok; simp at hok
            | err => rw [hin] at hok; simp at hok
            | ok r' =>
                rw [hin] at hok
                injection hok with hok
                have hconn_lt : e0.connectivity < n := by
                  rcases hdec e0 (findEdge_mem hfe) with h | h
                  · exact absurd h hc
                  · rw [← hidx0]; exact h
                have hdec2 : ∀ e2 ∈ setPlotted edges n,
                    e2.connectivity = -1 ∨ e2.connectivity < e2.index := by
                  intro e2 he2
                  obtain ⟨e3, he3, hu⟩ :=
                    mem_transfer (unmark_setPlotted edges n) he2
                  have hcn : e3.connectivity = e2.connectivity := by
                    simpa [unmark] using congrArg Edge.connectivity hu
                  have hix : e3.index = e2.index := by
                    simpa [unmark] using congrArg Edge.index hu
                  rcases hdec e3 he3 with h | h
                  · left; rw [← hcn]; exact h
                  · right; rw [← hcn, ← hix]; exact h
                have hpe'2 : r'.edges.get? p = some e' := by
                  rw [← hok] at hpe'
                  exact hpe'
                rcases setPlotted_get?_cases edges n p with hcase | ⟨em, hem, hemidx, hems⟩
                · rcases ih (setPlotted edges n) e0.connectivity _ _ r' hdec2 hin
                      p e e' (hcase.trans hpe) hpe'2 hbp with h | h
                  · left; exact h
                  · right
                    exact le_of_lt (lt_of_le_of_lt h hconn_lt)
                · rw [hem] at hpe
                  injection hpe with hpe
                  right
                  rw [hpe] at hemidx
                  exact le_of_eq hemidx

end Astride

namespace Astride

theorem mem_of_get? {l : List Edge} {n : Nat} {a : Edge}
    (h : l.get? n = some a) : a ∈ l := by
  rcases List.get?_eq_some.mp h with ⟨hl, hg⟩
  rw [← hg]
  exact List.get_mem l n hl

/-- Loop invariant for the box loop: if the current list agrees with
the original up to `box_plotted` flags and every position from `i` on
is still unmarked, the remaining `r = N - i` iterations each call
`__find_box` once and draw one box. -/
theorem plotBoxLoop_count (shapeX shapeY : Int) (edges0 : List Edge)
    (hidx0 : edges0.map (fun e => e.index) =
      (List.range edges0.length).map Int.ofNat)
    (hdec0 : ∀ e ∈ edges0, e.connectivity = -1 ∨ e.connectivity < e.index)
    (hchain0 : ∀ e ∈ edges0,
      (chainIdx edges0.length edges0 e.index).isSome = true) :
    ∀ (r i : Nat) (cur : List Edge) (boxes : List (Int × Int × Int × Int)),
      cur.map unmark = edges0.map unmark →
      (∀ p e, i ≤ p → cur.get? p = some e → e.box_plotted = false) →
      i + r = edges0.length →
      ∃ final bs, plotBoxLoop shapeX shapeY edges0.length cur i r boxes =
          some (final, bs) ∧ bs.length = boxes.length + r := by
  intro r
  induction r with
  | zero =>
      intro i cur boxes _ _ _
      exact ⟨cur, boxes, rfl, by simp⟩
  | succ r ih =>
      intro i cur boxes h1 h2 h3
      have hlen : cur.length = edges0.length := by
        have hc := congrArg List.length h1
        simpa using hc
      have hilt : i < cur.length := by omega
      obtain ⟨e, hgete⟩ : ∃ e, cur.get? i = some e := by
        cases hg : cur.get? i with
        | none =>
            have hge := List.get?_eq_none.mp hg
            omega
        | some e => exact ⟨e, rfl⟩
      have hbp : e.box_plotted = false := h2 i e (le_refl i) hgete
      obtain ⟨e0i, he0i⟩ : ∃ x, edges0.get? i = some x := by
        cases hg : edges0.get? i with
        | none =>
            have hge := List.get?_eq_none.mp hg
            omega
        | some x => exact ⟨x, rfl⟩
      have humi : unmark e = unmark e0i := by
        have hmu := map_unmark_get? h1 i
        rw [hgete, he0i] at hmu
        simpa using hmu
      have hidEq : e.index = e0i.index := by
        simpa [unmark] using congrArg Edge.index humi
      have hidxe : e.index = (i : Int) := by
        rw [hidEq]
        exact index_of_get? hidx0 he0i
      have hdeccur : ∀ ec ∈ cur, ec.connectivity = -1 ∨ ec.connectivity < ec.index := by
        intro ec hein
        obtain ⟨e2, he2, hu⟩ := mem_transfer h1 hein
        have hc1 : e2.connectivity = ec.connectivity := by
          simpa [unmark] using congrArg Edge.connectivity hu
        have hi1 : e2.index = ec.index := by
          simpa [unmark] using congrArg Edge.index hu
        rcases hdec0 e2 he2 with h | h
        · left; rw [← hc1]; exact h
        · right; rw [← hc1, ← hi1]; exact h
      have hstart : (chainIdx edges0.length edges0 e0i.index).isSome = true :=
        hchain0 e0i (mem_of_get? he0i)
      obtain ⟨l, hl⟩ := Option.isSome_iff_exists.mp hstart
      have hlcur : chainIdx edges0.length cur e.index = some l := by
        rw [chainIdx_congr h1, hidEq]
        exact hl
      obtain ⟨res, hres, _, _⟩ :=
        findBox_chain_spec edges0.length cur e.index l hlcur [] []
      have hframe : res.edges.map unmark = cur.map unmark :=
        findBox_frame edges0.length cur e.index [] [] res hres
      have h1' : (markPos res.edges i).map unmark = edges0.map unmark := by
        rw [unmark_markPos, hframe, h1]
      have hlen2 : res.edges.length = cur.length := by
        have hc := congrArg List.length hframe
        simpa using hc
      have h2' : ∀ p e', i + 1 ≤ p →
          (markPos res.edges i).get? p = some e' → e'.box_plotted = false := by
        intro p e' hp hget
        have hpi : p ≠ i := by omega
        rw [markPos_get?_ne _ _ _ hpi] at hget
        have hplt : p < cur.length := by
          rcases List.get?_eq_some.mp hget with ⟨hlp, _⟩
          omega
        obtain ⟨ec, hec⟩ : ∃ ec, cur.get? p = some ec := by
          cases hgc : cur.get? p with
          | none =>
              have hge := List.get?_eq_none.mp hgc
              omega
          | some ec => exact ⟨ec, rfl⟩
        cases hbp' : e'.box_plotted with
        | false => rfl
        | true =>
            exfalso
            rcases findBox_marks_le edges0.length cur e.index [] [] res
                hdeccur hres p ec e' hec hget hbp' with hcase | hcase
            · have hecf : ec.box_plotted = false := h2 p ec (by omega) hec
              rw [hecf] at hcase
              exact Bool.false_ne_true hcase
            · obtain ⟨ep, hep⟩ : ∃ ep, edges0.get? p = some ep := by
                cases hg : edges0.get? p with
                | none =>
                    have hge := List.get?_eq_none.mp hg
                    omega
                | some x => exact ⟨x, rfl⟩
              have hump : unmark ec = unmark ep := by
                have hmu := map_unmark_get? h1 p
                rw [hec, hep] at hmu
                simpa using hmu
              have hecidx : ec.index = (p : Int) := by
                have hie : ec.index = ep.index := by
                  simpa [unmark] using congrArg Edge.index hump
                rw [hie]
                exact index_of_get? hidx0 hep
              rw [hecidx, hidxe] at hcase
              omega
      have h3' : (i + 1) + r = edges0.length := by omega
      obtain ⟨final, bs, hloop, hlenb⟩ := ih (i + 1) (markPos res.edges i)
        (boxes ++ [(max (minList (flatPairs res.xs) - 10) 0,
                    min (maxList (flatPairs res.xs) + 10) shapeX,
                    max (minList (flatPairs res.ys) - 10) 0,
                    min (maxList (flatPairs res.ys) + 10) shapeY)]) h1' h2' h3'
      refine ⟨final, bs, ?_, ?_⟩
      · simp only [plotBoxLoop, hgete, hbp, Bool.false_eq_true, if_false, hres]
        exact hloop
      · rw [hlenb]
        simp only [List.length_append, List.length_cons, List.length_nil]
        omega

end Astride

namespace Astride

/-- C5 counterexample: `specChain` is one logical streak (a valid
2-edge chain, one chain root, links from higher to lower index, edges
listed in ascending index order), yet the box loop of `plot_figures`
draws TWO boxes — the lower-index fragment is reached first, gets its
own partial box, and the traversal from the root then redraws it —
refuting "exactly once per chain root / one bounding box per logical
streak". -/
theorem plot_boxes_two_boxes_cex :
    (plotBoxes 100 100 10 specChain).map (fun p => p.2.length) = some 2 ∧
    rootCount specChain = 1 :=
  ⟨by decide, by decide⟩

/-- C5 (amended): the box loop invokes `__find_box` once per edge whose
`box_plotted` flag is still unset when the loop reaches it — not once
per chain root.  Under the Linker invariant as stated (acyclic chains,
every link from a higher index to a strictly lower one, edges listed in
index order `0..N-1`, flags initially clear), every edge is still
unmarked when reached, so the loop draws exactly one box per EDGE
(`N` boxes in total): a k-edge streak receives k nested boxes, not
one. -/
theorem plot_boxes_one_per_edge (shapeX shapeY : Int) (edges : List Edge)
    (hidx : edges.map (fun e => e.index) =
      (List.range edges.length).map Int.ofNat)
    (hunm : ∀ e ∈ edges, e.box_plotted = false)
    (hdec : ∀ e ∈ edges, e.connectivity = -1 ∨ e.connectivity < e.index)
    (hchain : ∀ e ∈ edges,
      (chainIdx edges.length edges e.index).isSome = true) :
    ∃ final bs, plotBoxes shapeX shapeY edges.length edges =
        some (final, bs) ∧ bs.length = edges.length := by
  have h2 : ∀ p e, 0 ≤ p → edges.get? p = some e → e.box_plotted = false :=
    fun p e _ hp => hunm e (mem_of_get? hp)
  obtain ⟨final, bs, hloop, hlenb⟩ :=
    plotBoxLoop_count shapeX shapeY edges hidx hdec hchain
      edges.length 0 edges [] rfl h2 (by omega)
  exact ⟨final, bs, hloop, by simpa using hlenb⟩

/-- Witness for the amended C5: the 2-edge chain satisfies every
hypothesis and receives exactly 2 boxes — one per edge. -/
theorem plot_boxes_one_per_edge_witness :
    (specChain.map (fun e => e.index) =
      (List.range specChain.length).map Int.ofNat) ∧
    (∀ e ∈ specChain, e.box_plotted = false) ∧
    (∀ e ∈ specChain, e.connectivity = -1 ∨ e.connectivity < e.index) ∧
    (∀ e ∈ specChain,
      (chainIdx specChain.length specChain e.index).isSome = true) ∧
    (∃ final bs, plotBoxes 100 100 specChain.length specChain =
        some (final, bs) ∧ bs.length = specChain.length) :=
  ⟨by decide, by decide, by decide, by decide,
   plot_boxes_one_per_edge 100 100 specChain (by decide) (by decide)
     (by decide) (by decide)⟩

end Astride
